import Mathlib

/-!
Verification of the trie-based regex compiler `createOptimizedRegex`
(from the grammar-update script of the slua.dev repository).

The trie and its operations are shallow embeddings of the JavaScript
source: `TrieNode`, `buildTrie`, `trieToRegex`, `escapeRegexChar`,
`createOptimizedRegex`.  JavaScript `Map` objects preserve insertion
order, so `children` is an association list; `Map.set` on an existing
key updates the entry in place, on a new key appends at the end.
-/

/-- Trie node: `children` is an insertion-ordered map from characters to
child nodes, `isEndOfWord` marks that the path from the root to this node
spells a member of the input set.  Mirrors the `TrieNode` class. -/
inductive TrieNode where
  | node : Bool → List (Char × TrieNode) → TrieNode
deriving Repr

def TrieNode.isEndOfWord : TrieNode → Bool
  | .node e _ => e

def TrieNode.children : TrieNode → List (Char × TrieNode)
  | .node _ cs => cs

/-- Models `Map.get` on an insertion-ordered association list. -/
def lookupChild : List (Char × TrieNode) → Char → Option TrieNode
  | [], _ => none
  | (c', u) :: rest, c => if c' = c then some u else lookupChild rest c

/-- Models `Map.set` on an insertion-ordered association list: updates an existing
key in place, otherwise appends the new entry at the end. -/
def setChild : List (Char × TrieNode) → Char → TrieNode → List (Char × TrieNode)
  | [], c, v => [(c, v)]
  | (c', u) :: rest, c, v => if c' = c then (c, v) :: rest else (c', u) :: setChild rest c v

/-- One string's insertion walk from `buildTrie`: follow (creating when
absent) the child for each character, then mark the final node. -/
def TrieNode.insert : TrieNode → List Char → TrieNode
  | .node _ cs, [] => .node true cs
  | .node e cs, c :: rest =>
    let child := (lookupChild cs c).getD (.node false [])
    .node e (setChild cs c (child.insert rest))

/-- Models JavaScript `String.prototype.toLowerCase` by per-character
simple lowercasing (the vocabularies are ASCII identifiers). -/
def jsToLower (s : String) : String := ⟨s.data.map Char.toLower⟩

/-- The per-string preprocessing in `buildTrie`:
`caseInsensitive ? str.toLowerCase() : str`. -/
def processString (caseInsensitive : Bool) (s : String) : String :=
  if caseInsensitive then jsToLower s else s

/-- The `buildTrie` function from the source: inserts each (possibly lowercased) string
into a trie rooted at a fresh empty node. -/
def buildTrie (strings : List String) (caseInsensitive : Bool) : TrieNode :=
  strings.foldl (fun root s => root.insert (processString caseInsensitive s).data)
    (.node false [])

/-- The regex metacharacters of `escapeRegexChar`'s character class. -/
def isSpecialChar (c : Char) : Bool :=
  c = '.' || c = '*' || c = '+' || c = '?' || c = '^' || c = '$' ||
  c = '{' || c = '}' || c = '(' || c = ')' || c = '|' || c = '[' || c = ']' || c = '\\'

/-- The `escapeRegexChar` helper from the source: backslash-escape a regex
metacharacter, emit any other character unchanged. -/
def escapeRegexChar (c : Char) : String :=
  if isSpecialChar c then "\\" ++ String.singleton c else String.singleton c

/-- The alternative pushed for one child in `trieToRegex`'s loop, given the
already-computed child pattern; `none` when the loop body pushes nothing
(a child that neither ends a word nor has children). -/
def childAlt (c : Char) (childNode : TrieNode) (childPattern : String) : Option String :=
  if childNode.isEndOfWord && childNode.children.isEmpty then
    some (escapeRegexChar c)
  else if childNode.isEndOfWord && !childNode.children.isEmpty then
    if childPattern ≠ "" then some (escapeRegexChar c ++ "(?:" ++ childPattern ++ ")?")
    else some (escapeRegexChar c)
  else if !childNode.children.isEmpty then
    some (escapeRegexChar c ++ childPattern)
  else none

mutual

/-- The `trieToRegex` function from the source: convert a trie node to a regex fragment. -/
def trieToRegex : TrieNode → String
  | .node _ cs =>
    if cs.isEmpty then ""
    else
      match trieAlts cs with
      | [] => ""
      | [a] => a
      | alts => "(?:" ++ String.intercalate "|" alts ++ ")"

/-- The `alternatives` array built by `trieToRegex`'s loop over the
children. -/
def trieAlts : List (Char × TrieNode) → List String
  | [] => []
  | (c, childNode) :: rest =>
    let childPattern := trieToRegex childNode
    (match childAlt c childNode childPattern with
     | some a => [a]
     | none => []) ++ trieAlts rest

end

example : trieToRegex (.node false [('a', .node true [])]) = "a" := rfl
example : trieToRegex (buildTrie ["ab", "ac"] false) = "a(?:b|c)" := rfl
example : trieToRegex (buildTrie ["Set", "SetTimerEvent"] false) = "S" ++ "e" ++ "t(?:TimerEvent)?" := rfl

/-- A JavaScript value appearing as an element of the input array: either a
string or some non-string value (whose further identity the filter in
`createOptimizedRegex` never inspects beyond truthiness and `typeof`). -/
inductive JSVal where
  | str : String → JSVal
  | other : JSVal
deriving DecidableEq, Repr

/-- The element test `s => s && typeof s === 'string'` of the filter:
a non-string never passes the `typeof` test, and the empty string is falsy. -/
def keepVal : JSVal → Option String
  | .str s => if s.isEmpty then none else some s
  | .other => none

/-- The filter `strings.filter(s => s && typeof s === 'string')`. -/
def filterStrings (xs : List JSVal) : List String := xs.filterMap keepVal

/-- Spread of a Set, `[...new Set(l)]`: deduplication preserving first-occurrence order,
with `seen` the elements already kept. -/
def dedupAux : List String → List String → List String
  | [], _ => []
  | x :: xs, seen => if x ∈ seen then dedupAux xs seen else x :: dedupAux xs (x :: seen)

def dedupFirst (xs : List String) : List String := dedupAux xs []

/-- The options object of `createOptimizedRegex`, with the defaults taken in
its destructuring `{ wordBoundaries = true, caseInsensitive = false }`. -/
structure RegexOptions where
  wordBoundaries : Bool := true
  caseInsensitive : Bool := false
deriving DecidableEq, Repr

/-- The `createOptimizedRegex` entry point from the source.  A `strings` argument of `none`
models a non-array input (`!Array.isArray(strings)`); the two `throw`
statements become `Except.error` with the thrown messages. -/
def createOptimizedRegex (strings : Option (List JSVal)) (options : RegexOptions) :
    Except String String :=
  match strings with
  | none => .error "Input must be a non-empty array of strings"
  | some arr =>
    if arr.isEmpty then .error "Input must be a non-empty array of strings"
    else
      let uniqueStrings := dedupFirst (filterStrings arr)
      if uniqueStrings.isEmpty then .error "No valid strings provided"
      else
        let root := buildTrie uniqueStrings options.caseInsensitive
        let pattern := trieToRegex root
        if options.wordBoundaries then .ok ("\\b" ++ pattern ++ "\\b")
        else .ok pattern

example : createOptimizedRegex (some [.str "foo"]) {} = .ok "\\bfoo\\b" := rfl
example : createOptimizedRegex (some [.str "a.b", .str "a+c"]) ⟨false, false⟩ =
    .ok "a(?:\\.b|\\+c)" := rfl
example : createOptimizedRegex (some [.str "Abs"]) ⟨false, true⟩ = .ok "abs" := rfl
example : createOptimizedRegex (some [.str ""]) {} = .error "No valid strings provided" := rfl
example : createOptimizedRegex (some []) {} =
    .error "Input must be a non-empty array of strings" := rfl

/-!
Regex syntax and semantics.  The emitted pattern is a string; to interpret
it we give an abstract syntax of the regex fragment the compiler emits
(`Regex`), its standard serialization (`Regex.print`: literal characters
are metachar-escaped, `opt` prints as a non-capturing optional group
`(?:…)?`, `group` as `(?:…)`, `alt` as `…|…`), and its matching relation
(`RMatch`).  `trieAST` below rebuilds the compiler's output as a `Regex`
whose print is exactly the emitted string.
-/

inductive Regex where
  | fail : Regex
  | eps : Regex
  | char : Char → Regex
  | cat : Regex → Regex → Regex
  | alt : Regex → Regex → Regex
  | opt : Regex → Regex
  | group : Regex → Regex
deriving DecidableEq, Repr

/-- Standard serialization of the regex fragment syntax.  (`fail` never
occurs in emitted patterns; it prints as the standard never-matching
group.) -/
def Regex.print : Regex → String
  | .fail => "(?!)"
  | .eps => ""
  | .char c => escapeRegexChar c
  | .cat r s => r.print ++ s.print
  | .alt r s => r.print ++ "|" ++ s.print
  | .opt r => "(?:" ++ r.print ++ ")?"
  | .group r => "(?:" ++ r.print ++ ")"

/-- Whole-string matching for the regex fragment syntax. -/
inductive RMatch : Regex → List Char → Prop where
  | eps : RMatch .eps []
  | char (c : Char) : RMatch (.char c) [c]
  | cat {r s : Regex} {xs ys : List Char} :
      RMatch r xs → RMatch s ys → RMatch (.cat r s) (xs ++ ys)
  | altL {r s : Regex} {xs : List Char} : RMatch r xs → RMatch (.alt r s) xs
  | altR {r s : Regex} {xs : List Char} : RMatch s xs → RMatch (.alt r s) xs
  | optNone {r : Regex} : RMatch (.opt r) []
  | optSome {r : Regex} {xs : List Char} : RMatch r xs → RMatch (.opt r) xs
  | group {r : Regex} {xs : List Char} : RMatch r xs → RMatch (.group r) xs

theorem RMatch_fail {s : List Char} : ¬ RMatch .fail s := by
  intro h; cases h

theorem RMatch_eps_iff {s : List Char} : RMatch .eps s ↔ s = [] := by
  constructor
  · intro h; cases h; rfl
  · rintro rfl; exact .eps

theorem RMatch_char_iff {c : Char} {s : List Char} : RMatch (.char c) s ↔ s = [c] := by
  constructor
  · intro h; cases h; rfl
  · rintro rfl; exact .char c

theorem RMatch_cat_iff {r₁ r₂ : Regex} {s : List Char} :
    RMatch (.cat r₁ r₂) s ↔ ∃ xs ys, s = xs ++ ys ∧ RMatch r₁ xs ∧ RMatch r₂ ys := by
  constructor
  · intro h; cases h with
    | cat h₁ h₂ => exact ⟨_, _, rfl, h₁, h₂⟩
  · rintro ⟨xs, ys, rfl, h₁, h₂⟩; exact .cat h₁ h₂

theorem RMatch_alt_iff {r₁ r₂ : Regex} {s : List Char} :
    RMatch (.alt r₁ r₂) s ↔ RMatch r₁ s ∨ RMatch r₂ s := by
  constructor
  · intro h; cases h with
    | altL h => exact Or.inl h
    | altR h => exact Or.inr h
  · rintro (h | h)
    · exact .altL h
    · exact .altR h

theorem RMatch_opt_iff {r : Regex} {s : List Char} :
    RMatch (.opt r) s ↔ s = [] ∨ RMatch r s := by
  constructor
  · intro h; cases h with
    | optNone => exact Or.inl rfl
    | optSome h => exact Or.inr h
  · rintro (rfl | h)
    · exact .optNone
    · exact .optSome h

theorem RMatch_group_iff {r : Regex} {s : List Char} :
    RMatch (.group r) s ↔ RMatch r s := by
  constructor
  · intro h; cases h with
    | group h => exact h
  · exact .group

/-- Does the regex accept the empty string? -/
def Regex.nullable : Regex → Bool
  | .fail => false
  | .eps => true
  | .char _ => false
  | .cat r s => r.nullable && s.nullable
  | .alt r s => r.nullable || s.nullable
  | .opt _ => true
  | .group r => r.nullable

/-- Brzozowski derivative with respect to one character. -/
def Regex.deriv : Regex → Char → Regex
  | .fail, _ => .fail
  | .eps, _ => .fail
  | .char c, a => if a = c then .eps else .fail
  | .cat r s, a => if r.nullable then .alt (.cat (r.deriv a) s) (s.deriv a)
                   else .cat (r.deriv a) s
  | .alt r s, a => .alt (r.deriv a) (s.deriv a)
  | .opt r, a => r.deriv a
  | .group r, a => r.deriv a

/-- Decidable whole-string matching via iterated derivatives. -/
def Regex.rmatch (r : Regex) (s : List Char) : Bool :=
  (s.foldl Regex.deriv r).nullable

theorem nullable_iff (r : Regex) : r.nullable = true ↔ RMatch r [] := by
  induction r with
  | fail => simp [Regex.nullable, RMatch_fail]
  | eps => simp [Regex.nullable, RMatch_eps_iff]
  | char c => simp [Regex.nullable, RMatch_char_iff]
  | cat r₁ r₂ ih₁ ih₂ =>
    simp only [Regex.nullable, Bool.and_eq_true, RMatch_cat_iff, ih₁, ih₂]
    constructor
    · rintro ⟨h₁, h₂⟩; exact ⟨[], [], rfl, h₁, h₂⟩
    · rintro ⟨xs, ys, h, h₁, h₂⟩
      rcases List.append_eq_nil.mp h.symm with ⟨rfl, rfl⟩
      exact ⟨h₁, h₂⟩
  | alt r₁ r₂ ih₁ ih₂ =>
    simp [Regex.nullable, RMatch_alt_iff, ih₁, ih₂]
  | opt r ih =>
    simp [Regex.nullable, RMatch_opt_iff]
  | group r ih =>
    simp [Regex.nullable, RMatch_group_iff, ih]

theorem deriv_iff (r : Regex) (a : Char) (s : List Char) :
    RMatch (r.deriv a) s ↔ RMatch r (a :: s) := by
  induction r generalizing s with
  | fail => simp [Regex.deriv, RMatch_fail]
  | eps =>
    simp only [Regex.deriv, RMatch_eps_iff]
    constructor
    · intro h; exact absurd h RMatch_fail
    · intro h; cases h
  | char c =>
    simp only [Regex.deriv]
    by_cases hac : a = c
    · subst hac
      simp [RMatch_eps_iff, RMatch_char_iff]
    · simp only [if_neg hac]
      constructor
      · intro h; exact absurd h RMatch_fail
      · intro h
        rw [RMatch_char_iff] at h
        exact absurd (List.head_eq_of_cons_eq h) hac
  | cat r₁ r₂ ih₁ ih₂ =>
    simp only [Regex.deriv]
    by_cases hn : r₁.nullable
    · simp only [if_pos hn, RMatch_alt_iff, RMatch_cat_iff, ih₁, ih₂]
      constructor
      · rintro (⟨xs, ys, rfl, h₁, h₂⟩ | h)
        · exact ⟨a :: xs, ys, rfl, h₁, h₂⟩
        · exact ⟨[], a :: s, rfl, (nullable_iff r₁).mp hn, h⟩
      · rintro ⟨xs, ys, hsplit, h₁, h₂⟩
        cases xs with
        | nil =>
          simp only [List.nil_append] at hsplit
          exact Or.inr (hsplit ▸ h₂)
        | cons x xs =>
          rw [List.cons_append] at hsplit
          obtain ⟨rfl, rfl⟩ : x = a ∧ s = xs ++ ys :=
            ⟨(List.head_eq_of_cons_eq hsplit.symm),
             (List.tail_eq_of_cons_eq hsplit.symm).symm ▸ rfl⟩
          exact Or.inl ⟨xs, ys, rfl, h₁, h₂⟩
    · simp only [if_neg hn, RMatch_cat_iff, ih₁]
      constructor
      · rintro ⟨xs, ys, rfl, h₁, h₂⟩
        exact ⟨a :: xs, ys, rfl, h₁, h₂⟩
      · rintro ⟨xs, ys, hsplit, h₁, h₂⟩
        cases xs with
        | nil =>
          exfalso
          exact hn ((nullable_iff r₁).mpr h₁)
        | cons x xs =>
          rw [List.cons_append] at hsplit
          obtain rfl : x = a := List.head_eq_of_cons_eq hsplit.symm
          obtain rfl : s = xs ++ ys := List.tail_eq_of_cons_eq hsplit
          exact ⟨xs, ys, rfl, h₁, h₂⟩
  | alt r₁ r₂ ih₁ ih₂ =>
    simp [Regex.deriv, RMatch_alt_iff, ih₁, ih₂]
  | opt r ih =>
    simp only [Regex.deriv, RMatch_opt_iff, ih]
    constructor
    · exact Or.inr
    · rintro (h | h)
      · cases h
      · exact h
  | group r ih =>
    simp [Regex.deriv, RMatch_group_iff, ih]

theorem rmatch_iff (r : Regex) (s : List Char) : r.rmatch s = true ↔ RMatch r s := by
  induction s generalizing r with
  | nil => exact nullable_iff r
  | cons a s ih =>
    simpa [Regex.rmatch, List.foldl_cons] using (ih (r.deriv a)).trans (deriv_iff r a s)

/-- Induction over the trie structure: to prove `P` of a node it suffices to
prove it from `P` of all children. -/
theorem TrieNode.inductionOn {P : TrieNode → Prop}
    (h : ∀ (e : Bool) (cs : List (Char × TrieNode)),
      (∀ c u, (c, u) ∈ cs → P u) → P (.node e cs)) :
    ∀ t, P t := by
  have key : ∀ n (t : TrieNode), sizeOf t ≤ n → P t := by
    intro n
    induction n with
    | zero =>
      intro t ht
      cases t with
      | node e cs => simp [TrieNode.node.sizeOf_spec] at ht
    | succ n ih =>
      intro t ht
      cases t with
      | node e cs =>
        refine h e cs ?_
        intro c u hu
        have h1 := List.sizeOf_lt_of_mem hu
        have h2 : sizeOf u < sizeOf (c, u) := by simp
        have h3 : sizeOf cs < sizeOf (TrieNode.node e cs) := by
          simp [TrieNode.node.sizeOf_spec]
        exact ih u (by omega)
  exact fun t => key (sizeOf t) t (Nat.le_refl _)

theorem intercalate_go_append (x y s : String) (l : List String) :
    String.intercalate.go (x ++ y) s l = x ++ String.intercalate.go y s l := by
  induction l generalizing y with
  | nil => rfl
  | cons a as ih =>
    show String.intercalate.go (x ++ y ++ s ++ a) s as = _
    rw [String.append_assoc (x ++ y), String.append_assoc x,
      ← String.append_assoc y, ih]
    rfl

theorem intercalate_cons_cons (s a b : String) (l : List String) :
    String.intercalate s (a :: b :: l) = a ++ s ++ String.intercalate s (b :: l) := by
  show String.intercalate.go a s (b :: l) = a ++ s ++ String.intercalate.go b s l
  show String.intercalate.go (a ++ s ++ b) s l = _
  rw [intercalate_go_append (a ++ s) b s l]

/-- The AST counterpart of `childAlt`: the same case split, with the child's
abstract syntax supplied alongside its printed fragment. -/
def childAltAST (c : Char) (childNode : TrieNode) (childPattern : String)
    (childAST : Regex) : Option Regex :=
  if childNode.isEndOfWord && childNode.children.isEmpty then
    some (.char c)
  else if childNode.isEndOfWord && !childNode.children.isEmpty then
    if childPattern ≠ "" then some (.cat (.char c) (.opt childAST))
    else some (.char c)
  else if !childNode.children.isEmpty then
    some (.cat (.char c) childAST)
  else none

/-- Right-nested alternation of a nonempty list of alternatives; prints as
the `|`-join of its members. -/
def joinAlts : Regex → List Regex → Regex
  | a, [] => a
  | a, b :: rest => .alt a (joinAlts b rest)

mutual

/-- Abstract syntax of the fragment `trieToRegex` emits for a node:
`trieAST` follows exactly the same case analysis, so that
`(trieAST t).print = trieToRegex t`. -/
def trieAST : TrieNode → Regex
  | .node _ cs =>
    if cs.isEmpty then .eps
    else
      match trieASTAlts cs with
      | [] => .eps
      | [a] => a
      | a :: rest => .group (joinAlts a rest)

/-- Abstract syntax of the `alternatives` array. -/
def trieASTAlts : List (Char × TrieNode) → List Regex
  | [] => []
  | (c, childNode) :: rest =>
    (match childAltAST c childNode (trieToRegex childNode) (trieAST childNode) with
     | some a => [a]
     | none => []) ++ trieASTAlts rest

end

theorem print_joinAlts (a : Regex) (l : List Regex) :
    (joinAlts a l).print = String.intercalate "|" (Regex.print a :: l.map Regex.print) := by
  induction l generalizing a with
  | nil => rfl
  | cons b rest ih =>
    show a.print ++ "|" ++ (joinAlts b rest).print = _
    rw [ih, List.map_cons, intercalate_cons_cons]

theorem childAltAST_print (c : Char) (u : TrieNode) (p : String) (a : Regex)
    (hp : a.print = p) :
    (childAltAST c u p a).map Regex.print = childAlt c u p := by
  unfold childAltAST childAlt
  split
  · rfl
  · split
    · split
      · simp [Regex.print, hp, String.append_assoc]
      · rfl
    · split
      · simp [Regex.print, hp]
      · rfl

theorem trieASTAlts_print : ∀ (cs : List (Char × TrieNode)),
    (∀ c u, (c, u) ∈ cs → (trieAST u).print = trieToRegex u) →
    (trieASTAlts cs).map Regex.print = trieAlts cs := by
  intro cs
  induction cs with
  | nil => intro _; rfl
  | cons p rest ihr =>
    intro ih
    obtain ⟨c, u⟩ := p
    have hu := ih c u (List.mem_cons_self _ _)
    have hca := childAltAST_print c u (trieToRegex u) (trieAST u) hu
    simp only [trieASTAlts, trieAlts, List.map_append]
    rw [ihr (fun c' u' h => ih c' u' (List.mem_cons_of_mem _ h))]
    congr 1
    cases hcc : childAltAST c u (trieToRegex u) (trieAST u) with
    | none =>
      rw [hcc] at hca
      simp only [Option.map_none'] at hca
      rw [← hca]
      rfl
    | some a =>
      rw [hcc] at hca
      simp only [Option.map_some'] at hca
      rw [← hca]
      rfl

/-- Membership of a character list in the trie: follow the child edges and
test the end-of-word mark. -/
def TrieNode.memB : TrieNode → List Char → Bool
  | .node e _, [] => e
  | .node _ cs, c :: rest =>
    match lookupChild cs c with
    | some u => u.memB rest
    | none => false

theorem lookupChild_setChild (cs : List (Char × TrieNode)) (c c' : Char) (v : TrieNode) :
    lookupChild (setChild cs c v) c' = if c' = c then some v else lookupChild cs c' := by
  induction cs with
  | nil =>
    by_cases h : c' = c
    · simp [setChild, lookupChild, h]
    · simp [setChild, lookupChild, h, Ne.symm h]
  | cons p rest ih =>
    obtain ⟨c₀, u₀⟩ := p
    simp only [setChild]
    by_cases h0 : c₀ = c
    · subst h0
      rw [if_pos rfl]
      by_cases h1 : c' = c₀
      · simp [lookupChild, h1]
      · simp [lookupChild, h1, Ne.symm h1]
    · rw [if_neg h0]
      by_cases h1 : c₀ = c'
      · subst h1
        simp [lookupChild, h0]
      · simp [lookupChild, h1, ih]

theorem setChild_ne_nil (cs : List (Char × TrieNode)) (c : Char) (v : TrieNode) :
    setChild cs c v ≠ [] := by
  cases cs with
  | nil => simp [setChild]
  | cons p rest =>
    obtain ⟨c₀, u₀⟩ := p
    simp only [setChild]
    by_cases h : c₀ = c <;> simp [h]

theorem mem_setChild {cs : List (Char × TrieNode)} {c c' : Char} {v u : TrieNode}
    (h : (c', u) ∈ setChild cs c v) : (c' = c ∧ u = v) ∨ (c', u) ∈ cs := by
  induction cs with
  | nil =>
    simp only [setChild, List.mem_singleton] at h
    exact Or.inl ⟨congrArg Prod.fst h, congrArg Prod.snd h⟩
  | cons p rest ih =>
    obtain ⟨c₀, u₀⟩ := p
    simp only [setChild] at h
    by_cases h0 : c₀ = c
    · rw [if_pos h0] at h
      rcases List.mem_cons.mp h with h1 | h1
      · exact Or.inl ⟨congrArg Prod.fst h1, congrArg Prod.snd h1⟩
      · exact Or.inr (List.mem_cons_of_mem _ h1)
    · rw [if_neg h0] at h
      rcases List.mem_cons.mp h with h1 | h1
      · exact Or.inr (List.mem_cons.mpr (Or.inl h1))
      · rcases ih h1 with h2 | h2
        · exact Or.inl h2
        · exact Or.inr (List.mem_cons_of_mem _ h2)

theorem keys_setChild (cs : List (Char × TrieNode)) (c : Char) (v : TrieNode) :
    (setChild cs c v).map Prod.fst =
      if c ∈ cs.map Prod.fst then cs.map Prod.fst else cs.map Prod.fst ++ [c] := by
  induction cs with
  | nil => simp [setChild]
  | cons p rest ih =>
    obtain ⟨c₀, u₀⟩ := p
    simp only [setChild, List.map_cons]
    by_cases h0 : c₀ = c
    · subst h0
      simp
    · rw [if_neg h0, List.map_cons, ih]
      by_cases h1 : c ∈ rest.map Prod.fst
      · simp [h1, Ne.symm h0]
      · simp [h1, Ne.symm h0]

theorem memB_empty (v : List Char) : TrieNode.memB (.node false []) v = false := by
  cases v <;> simp [TrieNode.memB, lookupChild]

/-- Inserting a word adds exactly that word to the set the trie recognizes. -/
theorem memB_insert (w : List Char) : ∀ (t : TrieNode) (v : List Char),
    (t.insert w).memB v = true ↔ v = w ∨ t.memB v = true := by
  induction w with
  | nil =>
    rintro ⟨e, cs⟩ v
    cases v with
    | nil => simp [TrieNode.insert, TrieNode.memB]
    | cons c rest => simp [TrieNode.insert, TrieNode.memB]
  | cons c wrest ih =>
    rintro ⟨e, cs⟩ v
    cases v with
    | nil => simp [TrieNode.insert, TrieNode.memB]
    | cons c' vrest =>
      simp only [TrieNode.insert, TrieNode.memB, lookupChild_setChild]
      by_cases hc : c' = c
      · subst hc
        rw [if_pos rfl]
        rw [ih ((lookupChild cs c').getD (.node false [])) vrest]
        cases hl : lookupChild cs c' with
        | some u => simp [hl]
        | none => simp [hl, memB_empty]
      · rw [if_neg hc]
        have : ¬ (c' :: vrest = c :: wrest) := fun h => hc (List.head_eq_of_cons_eq h)
        cases hl : lookupChild cs c' with
        | some u => simp [this]
        | none => simp [this]

/-- The word set of `buildTrie`: exactly the processed input strings. -/
theorem memB_buildTrie (strings : List String) (ci : Bool) (v : List Char) :
    (buildTrie strings ci).memB v = true ↔
      ∃ s ∈ strings, v = (processString ci s).data := by
  suffices key : ∀ (l : List String) (t : TrieNode),
      (l.foldl (fun root s => root.insert (processString ci s).data) t).memB v = true ↔
        (∃ s ∈ l, v = (processString ci s).data) ∨ t.memB v = true by
    rw [buildTrie, key]
    simp [memB_empty]
  intro l
  induction l with
  | nil => simp
  | cons s rest ih =>
    intro t
    rw [List.foldl_cons, ih, memB_insert]
    constructor
    · rintro (⟨s', hs', rfl⟩ | rfl | h)
      · exact Or.inl ⟨s', List.mem_cons_of_mem _ hs', rfl⟩
      · exact Or.inl ⟨s, List.mem_cons_self _ _, rfl⟩
      · exact Or.inr h
    · rintro (⟨s', hs', rfl⟩ | h)
      · rcases List.mem_cons.mp hs' with rfl | hs'
        · exact Or.inr (Or.inl rfl)
        · exact Or.inl ⟨s', hs', rfl⟩
      · exact Or.inr (Or.inr h)

theorem lookupChild_mem : ∀ {cs : List (Char × TrieNode)} {c : Char} {u : TrieNode},
    lookupChild cs c = some u → (c, u) ∈ cs := by
  intro cs
  induction cs with
  | nil => intro c u h; simp [lookupChild] at h
  | cons p rest ih =>
    obtain ⟨c₀, u₀⟩ := p
    intro c u h
    simp only [lookupChild] at h
    by_cases h0 : c₀ = c
    · rw [if_pos h0] at h
      subst h0
      cases h
      exact List.mem_cons_self _ _
    · rw [if_neg h0] at h
      exact List.mem_cons_of_mem _ (ih h)

theorem lookupChild_of_mem : ∀ {cs : List (Char × TrieNode)} {c : Char} {u : TrieNode},
    (cs.map Prod.fst).Nodup → (c, u) ∈ cs → lookupChild cs c = some u := by
  intro cs
  induction cs with
  | nil => intro c u _ h; simp at h
  | cons p rest ih =>
    obtain ⟨c₀, u₀⟩ := p
    intro c u hnd hm
    rw [List.map_cons, List.nodup_cons] at hnd
    rcases List.mem_cons.mp hm with h1 | h1
    · obtain ⟨rfl, rfl⟩ : c₀ = c ∧ u₀ = u :=
        ⟨(congrArg Prod.fst h1).symm, (congrArg Prod.snd h1).symm⟩
      simp [lookupChild]
    · have hc : c₀ ≠ c := by
        rintro rfl
        exact hnd.1 (List.mem_map.mpr ⟨(c₀, u), h1, rfl⟩)
      simp only [lookupChild, if_neg hc]
      exact ih hnd.2 h1

/-- Well-formedness guaranteed by the `Map`-based construction: the keys at
every node are pairwise distinct. -/
inductive TrieNode.WF : TrieNode → Prop where
  | mk {e : Bool} {cs : List (Char × TrieNode)} :
      (cs.map Prod.fst).Nodup → (∀ c u, (c, u) ∈ cs → TrieNode.WF u) →
      TrieNode.WF (.node e cs)

theorem TrieNode.WF.nodupKeys {e : Bool} {cs : List (Char × TrieNode)}
    (h : TrieNode.WF (.node e cs)) : (cs.map Prod.fst).Nodup := by
  cases h with
  | mk h1 h2 => exact h1

theorem TrieNode.WF.childWF {e : Bool} {cs : List (Char × TrieNode)} {c : Char} {u : TrieNode}
    (h : TrieNode.WF (.node e cs)) (hm : (c, u) ∈ cs) : TrieNode.WF u := by
  cases h with
  | mk h1 h2 => exact h2 c u hm

theorem WF_insert (w : List Char) : ∀ t : TrieNode, t.WF → (t.insert w).WF := by
  induction w with
  | nil =>
    rintro ⟨e, cs⟩ h
    exact .mk h.nodupKeys (fun c u hm => h.childWF hm)
  | cons c rest ih =>
    rintro ⟨e, cs⟩ h
    refine .mk ?_ ?_
    · rw [keys_setChild]
      split
      · exact h.nodupKeys
      · rw [List.nodup_append]
        refine ⟨h.nodupKeys, List.nodup_singleton c, ?_⟩
        intro a ha hb
        rw [List.mem_singleton] at hb
        subst hb
        simp_all
    · intro c' u' hm
      rcases mem_setChild hm with ⟨rfl, rfl⟩ | hold
      · refine ih _ ?_
        cases hl : lookupChild cs c' with
        | some u₀ => simpa [hl] using h.childWF (lookupChild_mem hl)
        | none => exact TrieNode.WF.mk (by simp) (by simp)
      · exact h.childWF hold

theorem WF_buildTrie (strings : List String) (ci : Bool) : (buildTrie strings ci).WF := by
  rw [buildTrie]
  have key : ∀ (l : List String) (t : TrieNode), t.WF →
      (l.foldl (fun root s => root.insert (processString ci s).data) t).WF := by
    intro l
    induction l with
    | nil => intro t h; exact h
    | cons s rest ihl =>
      intro t h
      exact ihl _ (WF_insert _ _ h)
  exact key strings _ (TrieNode.WF.mk (by simp) (by simp))

/-- The structural invariant of built tries: every node below the root either
ends a word or has children (nodes are only created on the insertion path of
some string, where they are either marked or extended). -/
inductive TrieNode.Valid : TrieNode → Prop where
  | mk {e : Bool} {cs : List (Char × TrieNode)} :
      (∀ c u, (c, u) ∈ cs → u.isEndOfWord = true ∨ u.children ≠ []) →
      (∀ c u, (c, u) ∈ cs → TrieNode.Valid u) →
      TrieNode.Valid (.node e cs)

theorem TrieNode.Valid.childValid {e : Bool} {cs : List (Char × TrieNode)} {c : Char}
    {u : TrieNode} (h : TrieNode.Valid (.node e cs)) (hm : (c, u) ∈ cs) :
    (u.isEndOfWord = true ∨ u.children ≠ []) ∧ TrieNode.Valid u := by
  cases h with
  | mk h1 h2 => exact ⟨h1 c u hm, h2 c u hm⟩

theorem Valid_insert (w : List Char) : ∀ t : TrieNode, t.Valid → (t.insert w).Valid := by
  induction w with
  | nil =>
    rintro ⟨e, cs⟩ h
    exact .mk (fun c u hm => (h.childValid hm).1) (fun c u hm => (h.childValid hm).2)
  | cons c rest ih =>
    rintro ⟨e, cs⟩ h
    have hchild : TrieNode.Valid ((lookupChild cs c).getD (.node false [])) := by
      cases hl : lookupChild cs c with
      | some u₀ => simpa [hl] using (h.childValid (lookupChild_mem hl)).2
      | none => exact TrieNode.Valid.mk (by simp) (by simp)
    refine .mk ?_ ?_
    · intro c' u' hm
      rcases mem_setChild hm with ⟨rfl, rfl⟩ | hold
      · cases rest with
        | nil =>
          obtain ⟨e₀, cs₀⟩ := (lookupChild cs c').getD (.node false [])
          exact Or.inl rfl
        | cons c₁ rest₁ =>
          obtain ⟨e₀, cs₀⟩ := (lookupChild cs c').getD (.node false [])
          exact Or.inr (by simpa [TrieNode.insert, TrieNode.children] using
            setChild_ne_nil cs₀ c₁ _)
      · exact (h.childValid hold).1
    · intro c' u' hm
      rcases mem_setChild hm with ⟨rfl, rfl⟩ | hold
      · exact ih _ hchild
      · exact (h.childValid hold).2

theorem Valid_buildTrie (strings : List String) (ci : Bool) : (buildTrie strings ci).Valid := by
  rw [buildTrie]
  have key : ∀ (l : List String) (t : TrieNode), t.Valid →
      (l.foldl (fun root s => root.insert (processString ci s).data) t).Valid := by
    intro l
    induction l with
    | nil => intro t h; exact h
    | cons s rest ihl =>
      intro t h
      exact ihl _ (Valid_insert _ _ h)
  exact key strings _ (TrieNode.Valid.mk (by simp) (by simp))

theorem trieAST_print : ∀ t : TrieNode, (trieAST t).print = trieToRegex t := by
  refine TrieNode.inductionOn ?_
  intro e cs ih
  have halts := trieASTAlts_print cs ih
  simp only [trieAST, trieToRegex]
  by_cases hcs : cs.isEmpty
  · simp [hcs, Regex.print]
  · simp only [hcs, Bool.false_eq_true, if_false]
    rw [← halts]
    cases hl : trieASTAlts cs with
    | nil => rfl
    | cons a rest =>
      cases rest with
      | nil => rfl
      | cons b rest2 =>
        simp only [List.map_cons]
        show ("(?:" ++ (joinAlts a (b :: rest2)).print ++ ")") = _
        rw [print_joinAlts, List.map_cons]

theorem trieAlts_eq_filterMap (cs : List (Char × TrieNode)) :
    trieAlts cs = cs.filterMap (fun p => childAlt p.1 p.2 (trieToRegex p.2)) := by
  induction cs with
  | nil => rfl
  | cons p rest ih =>
    obtain ⟨c, u⟩ := p
    simp only [trieAlts, ih, List.filterMap_cons]
    cases childAlt c u (trieToRegex u) <;> simp

theorem trieASTAlts_eq_filterMap (cs : List (Char × TrieNode)) :
    trieASTAlts cs =
      cs.filterMap (fun p => childAltAST p.1 p.2 (trieToRegex p.2) (trieAST p.2)) := by
  induction cs with
  | nil => rfl
  | cons p rest ih =>
    obtain ⟨c, u⟩ := p
    simp only [trieASTAlts, ih, List.filterMap_cons]
    cases childAltAST c u (trieToRegex u) (trieAST u) <;> simp

theorem escapeRegexChar_ne_empty (c : Char) : escapeRegexChar c ≠ "" := by
  unfold escapeRegexChar
  split <;> simp [String.ext_iff, String.data_append, String.data_singleton]

theorem childAlt_some_ne_empty {c : Char} {u : TrieNode} {p a : String}
    (h : childAlt c u p = some a) : a ≠ "" := by
  unfold childAlt at h
  split at h
  · cases h; exact escapeRegexChar_ne_empty c
  · split at h
    · split at h
      · cases h
        simp [String.ext_iff, String.data_append]
      · cases h; exact escapeRegexChar_ne_empty c
    · split at h
      · cases h
        intro he
        rw [String.ext_iff, String.data_append] at he
        exact escapeRegexChar_ne_empty c (String.ext_iff.mpr (List.append_eq_nil.mp he).1)
      · cases h

theorem childAlt_isSome (c : Char) {u : TrieNode} (p : String)
    (h : u.isEndOfWord = true ∨ u.children ≠ []) :
    ∃ a, childAlt c u p = some a := by
  unfold childAlt
  split
  · exact ⟨_, rfl⟩
  · split
    · split
      · exact ⟨_, rfl⟩
      · exact ⟨_, rfl⟩
    · split
      · exact ⟨_, rfl⟩
      · exfalso
        simp_all [List.isEmpty_iff]

theorem childAltAST_isSome (c : Char) {u : TrieNode} (p : String) (ast : Regex)
    (h : u.isEndOfWord = true ∨ u.children ≠ []) :
    ∃ a, childAltAST c u p ast = some a := by
  unfold childAltAST
  split
  · exact ⟨_, rfl⟩
  · split
    · split
      · exact ⟨_, rfl⟩
      · exact ⟨_, rfl⟩
    · split
      · exact ⟨_, rfl⟩
      · exfalso
        simp_all [List.isEmpty_iff]

theorem trieToRegex_ne_empty : ∀ t : TrieNode, t.Valid → t.children ≠ [] →
    trieToRegex t ≠ "" := by
  rintro ⟨e, cs⟩ hv hne
  have hcs : cs.isEmpty = false := by
    cases cs with
    | nil => exact absurd rfl hne
    | cons p rest => rfl
  simp only [trieToRegex, TrieNode.children, hcs, Bool.false_eq_true, if_false]
  have halts : trieAlts cs ≠ [] := by
    cases cs with
    | nil => exact absurd rfl hne
    | cons p rest =>
      obtain ⟨c, u⟩ := p
      rcases childAlt_isSome c (trieToRegex u)
          (hv.childValid (List.mem_cons_self _ _)).1 with ⟨a, ha⟩
      simp [trieAlts, ha]
  cases hl : trieAlts cs with
  | nil => exact absurd hl halts
  | cons a rest =>
    cases rest with
    | nil =>
      have : a ∈ trieAlts cs := by rw [hl]; exact List.mem_singleton.mpr rfl
      rw [trieAlts_eq_filterMap] at this
      rcases List.mem_filterMap.mp this with ⟨⟨c, u⟩, _, ha⟩
      exact childAlt_some_ne_empty ha
    | cons b rest2 =>
      simp [String.ext_iff, String.data_append]

theorem memB_nil (u : TrieNode) : u.memB [] = u.isEndOfWord := by
  obtain ⟨e, cs⟩ := u
  rfl

theorem RMatch_joinAlts (a : Regex) (l : List Regex) (s : List Char) :
    RMatch (joinAlts a l) s ↔ RMatch a s ∨ ∃ r ∈ l, RMatch r s := by
  induction l generalizing a with
  | nil => simp [joinAlts]
  | cons b rest ih =>
    simp only [joinAlts, RMatch_alt_iff, ih b, List.mem_cons]
    constructor
    · rintro (h | h | ⟨r, hr, h⟩)
      · exact Or.inl h
      · exact Or.inr ⟨b, Or.inl rfl, h⟩
      · exact Or.inr ⟨r, Or.inr hr, h⟩
    · rintro (h | ⟨r, (rfl | hr), h⟩)
      · exact Or.inl h
      · exact Or.inr (Or.inl h)
      · exact Or.inr (Or.inr ⟨r, hr, h⟩)

theorem RMatch_trieAST_alts {e : Bool} {cs : List (Char × TrieNode)}
    (hne : trieASTAlts cs ≠ []) (hcs : cs ≠ []) (s : List Char) :
    RMatch (trieAST (.node e cs)) s ↔ ∃ r ∈ trieASTAlts cs, RMatch r s := by
  have hcse : cs.isEmpty = false := by
    cases cs with
    | nil => exact absurd rfl hcs
    | cons p rest => rfl
  simp only [trieAST, hcse, Bool.false_eq_true, if_false]
  cases hl : trieASTAlts cs with
  | nil => exact absurd hl hne
  | cons a rest =>
    cases rest with
    | nil => simp
    | cons b rest2 =>
      simp only [RMatch_group_iff, RMatch_joinAlts, List.mem_cons]
      constructor
      · rintro (h | ⟨r, (rfl | hr), h⟩)
        · exact ⟨a, Or.inl rfl, h⟩
        · exact ⟨r, Or.inr (Or.inl rfl), h⟩
        · exact ⟨r, Or.inr (Or.inr hr), h⟩
      · rintro ⟨r, (rfl | rfl | hr), h⟩
        · exact Or.inl h
        · exact Or.inr ⟨r, Or.inl rfl, h⟩
        · exact Or.inr ⟨r, Or.inr hr, h⟩

theorem RMatch_cat_char {c : Char} {X : Regex} {s : List Char} :
    RMatch (.cat (.char c) X) s ↔ ∃ ys, s = c :: ys ∧ RMatch X ys := by
  rw [RMatch_cat_iff]
  constructor
  · rintro ⟨xs, ys, rfl, h1, h2⟩
    rw [RMatch_char_iff] at h1
    subst h1
    exact ⟨ys, rfl, h2⟩
  · rintro ⟨ys, rfl, h⟩
    exact ⟨[c], ys, rfl, RMatch.char c, h⟩

/-- The language of the alternative emitted for child `(c, u)`: the strings
`c :: s'` whose suffix `s'` the child subtrie accepts. -/
theorem RMatch_childAltAST {c : Char} {u : TrieNode} {r : Regex}
    (hu : u.Valid)
    (ihu : u.children ≠ [] → ∀ s, RMatch (trieAST u) s ↔ (u.memB s = true ∧ s ≠ []))
    (hca : childAltAST c u (trieToRegex u) (trieAST u) = some r) (s : List Char) :
    RMatch r s ↔ ∃ s', s = c :: s' ∧ u.memB s' = true := by
  unfold childAltAST at hca
  split at hca
  · -- complete word, no children: bare character
    cases hca
    rename_i hcond
    rw [Bool.and_eq_true] at hcond
    obtain ⟨e₀, hu0⟩ : ∃ e₀, u = TrieNode.node e₀ [] := by
      obtain ⟨e₀, cs₀⟩ := u
      simp only [TrieNode.children, List.isEmpty_iff] at hcond
      exact ⟨e₀, by rw [hcond.2]⟩
    rw [RMatch_char_iff]
    constructor
    · rintro rfl
      refine ⟨[], rfl, ?_⟩
      rw [memB_nil]
      exact hcond.1
    · rintro ⟨s', rfl, hmem⟩
      cases s' with
      | nil => rfl
      | cons x rest =>
        exfalso
        rw [hu0] at hmem
        simp [TrieNode.memB, lookupChild] at hmem
  · split at hca
    · -- complete word with children and a non-empty child fragment
      split at hca
      · cases hca
        rename_i hcond hpat
        rw [Bool.and_eq_true, Bool.not_eq_true', List.isEmpty_eq_false] at hcond
        rw [RMatch_cat_char]
        have hrec := ihu hcond.2
        constructor
        · rintro ⟨ys, rfl, hys⟩
          rw [RMatch_opt_iff] at hys
          rcases hys with rfl | hys
          · exact ⟨[], rfl, by rw [memB_nil]; exact hcond.1⟩
          · rcases (hrec ys).mp hys with ⟨hmem, _⟩
            exact ⟨ys, rfl, hmem⟩
        · rintro ⟨s', rfl, hmem⟩
          refine ⟨s', rfl, ?_⟩
          rw [RMatch_opt_iff]
          cases s' with
          | nil => exact Or.inl rfl
          | cons x rest => exact Or.inr ((hrec _).mpr ⟨hmem, by simp⟩)
      · -- empty child fragment for a node with children: impossible when valid
        exfalso
        rename_i hcond hpat
        rw [Bool.and_eq_true, Bool.not_eq_true', List.isEmpty_eq_false] at hcond
        rw [Ne, not_not] at hpat
        exact trieToRegex_ne_empty u hu hcond.2 hpat
    · split at hca
      · -- not a complete word, has children: mandatory continuation
        cases hca
        rename_i hend hcond
        rw [Bool.not_eq_true', List.isEmpty_eq_false] at hcond
        have hisend : u.isEndOfWord = false := by
          by_contra hc
          rw [Bool.not_eq_false] at hc
          exact hend (by simp_all [List.isEmpty_eq_false])
        rw [RMatch_cat_char]
        have hrec := ihu hcond
        constructor
        · rintro ⟨ys, rfl, hys⟩
          rcases (hrec ys).mp hys with ⟨hmem, _⟩
          exact ⟨ys, rfl, hmem⟩
        · rintro ⟨s', rfl, hmem⟩
          refine ⟨s', rfl, (hrec s').mpr ⟨hmem, ?_⟩⟩
          cases s' with
          | nil =>
            exfalso
            rw [memB_nil, hisend] at hmem
            exact Bool.false_ne_true hmem
          | cons x rest => simp
      · cases hca

/-- The fragment `trieToRegex` emits for a (well-formed, valid, non-leaf)
trie node matches exactly the non-empty words the trie contains. -/
theorem RMatch_trieAST : ∀ t : TrieNode, t.WF → t.Valid → t.children ≠ [] →
    ∀ s : List Char, RMatch (trieAST t) s ↔ (t.memB s = true ∧ s ≠ []) := by
  refine TrieNode.inductionOn ?_
  intro e cs ih hwf hv hne s
  replace hne : cs ≠ [] := hne
  have haltsne : trieASTAlts cs ≠ [] := by
    cases cs with
    | nil => exact absurd rfl hne
    | cons p rest =>
      obtain ⟨c, u⟩ := p
      rcases childAltAST_isSome c (trieToRegex u) (trieAST u)
          (hv.childValid (List.mem_cons_self _ _)).1 with ⟨a, ha⟩
      simp [trieASTAlts, ha]
  rw [RMatch_trieAST_alts haltsne hne s]
  constructor
  · rintro ⟨r, hr, hm⟩
    rw [trieASTAlts_eq_filterMap, List.mem_filterMap] at hr
    rcases hr with ⟨⟨c, u⟩, hcu, hca⟩
    have hvc := (hv.childValid hcu).2
    have hwc := hwf.childWF hcu
    rcases (RMatch_childAltAST hvc
        (fun hc => ih c u hcu hwc hvc hc) hca s).mp hm with ⟨s', rfl, hmem⟩
    refine ⟨?_, by simp⟩
    simp only [TrieNode.memB, lookupChild_of_mem hwf.nodupKeys hcu]
    exact hmem
  · rintro ⟨hmem, hs⟩
    cases s with
    | nil => exact absurd rfl hs
    | cons c s' =>
      simp only [TrieNode.memB] at hmem
      cases hl : lookupChild cs c with
      | none => rw [hl] at hmem; exact absurd hmem (by simp)
      | some u =>
        rw [hl] at hmem
        have hcu := lookupChild_mem hl
        have hvc := (hv.childValid hcu).2
        have hwc := hwf.childWF hcu
        rcases childAltAST_isSome c (trieToRegex u) (trieAST u)
            (hv.childValid hcu).1 with ⟨r, hca⟩
        refine ⟨r, ?_, ?_⟩
        · rw [trieASTAlts_eq_filterMap, List.mem_filterMap]
          exact ⟨(c, u), hcu, hca⟩
        · exact (RMatch_childAltAST hvc
            (fun hc => ih c u hcu hwc hvc hc) hca (c :: s')).mpr ⟨s', rfl, hmem⟩

/-! Plumbing for the entry point: filtering, deduplication, and the success
form of `createOptimizedRegex`. -/

theorem isEmpty_false_of_ne {s : String} (h : s ≠ "") : s.isEmpty = false := by
  cases hs : s.isEmpty
  · rfl
  · exact absurd ((String.isEmpty_iff s).mp hs) h

theorem mem_filterStrings {xs : List JSVal} {s : String} :
    s ∈ filterStrings xs ↔ JSVal.str s ∈ xs ∧ s ≠ "" := by
  rw [filterStrings, List.mem_filterMap]
  constructor
  · rintro ⟨v, hv, hk⟩
    cases v with
    | str s' =>
      simp only [keepVal] at hk
      split at hk
      · cases hk
      · cases hk
        refine ⟨hv, ?_⟩
        simp_all [String.isEmpty_iff]
    | other => simp [keepVal] at hk
  · rintro ⟨hv, hs⟩
    refine ⟨JSVal.str s, hv, ?_⟩
    simp [keepVal, String.isEmpty_iff, hs]

theorem ne_empty_of_mem_filterStrings {xs : List JSVal} {s : String}
    (h : s ∈ filterStrings xs) : s ≠ "" :=
  (mem_filterStrings.mp h).2

theorem filterStrings_append (xs ys : List JSVal) :
    filterStrings (xs ++ ys) = filterStrings xs ++ filterStrings ys := by
  simp [filterStrings, List.filterMap_append]

theorem filterStrings_map_str (l : List String) (h : ∀ s ∈ l, s ≠ "") :
    filterStrings (l.map JSVal.str) = l := by
  induction l with
  | nil => rfl
  | cons a rest ih =>
    have ha : a.isEmpty = false :=
      isEmpty_false_of_ne (h a (List.mem_cons_self _ _))
    simp only [List.map_cons, filterStrings, List.filterMap_cons, keepVal, ha,
      Bool.false_eq_true, if_false]
    rw [← filterStrings, ih (fun s hs => h s (List.mem_cons_of_mem _ hs))]

theorem mem_dedupAux {a : String} : ∀ (l seen : List String),
    a ∈ dedupAux l seen ↔ a ∈ l ∧ a ∉ seen := by
  intro l
  induction l with
  | nil => intro seen; simp [dedupAux]
  | cons x xs ih =>
    intro seen
    simp only [dedupAux]
    by_cases hx : x ∈ seen
    · rw [if_pos hx, ih]
      constructor
      · rintro ⟨h1, h2⟩
        exact ⟨List.mem_cons_of_mem _ h1, h2⟩
      · rintro ⟨h1, h2⟩
        rcases List.mem_cons.mp h1 with rfl | h1
        · exact absurd hx h2
        · exact ⟨h1, h2⟩
    · rw [if_neg hx]
      constructor
      · intro h
        rcases List.mem_cons.mp h with rfl | h1
        · exact ⟨List.mem_cons_self _ _, hx⟩
        · rw [ih] at h1
          refine ⟨List.mem_cons_of_mem _ h1.1, ?_⟩
          intro hc
          exact h1.2 (List.mem_cons_of_mem _ hc)
      · rintro ⟨h1, h2⟩
        rcases List.mem_cons.mp h1 with rfl | h1
        · exact List.mem_cons_self _ _
        · by_cases hax : a = x
          · subst hax; exact List.mem_cons_self _ _
          · refine List.mem_cons_of_mem _ (ih _ |>.mpr ⟨h1, ?_⟩)
            intro hc
            rcases List.mem_cons.mp hc with rfl | hc
            · exact hax rfl
            · exact h2 hc

theorem mem_dedupFirst {a : String} {l : List String} : a ∈ dedupFirst l ↔ a ∈ l := by
  rw [dedupFirst, mem_dedupAux]
  simp

theorem dedupFirst_eq_nil_iff {l : List String} : dedupFirst l = [] ↔ l = [] := by
  cases l with
  | nil => simp [dedupFirst, dedupAux]
  | cons x xs =>
    simp only [dedupFirst, dedupAux, List.not_mem_nil, if_false]
    constructor
    · intro h; cases h
    · intro h; cases h

theorem dedupAux_nodup : ∀ (l seen : List String), (dedupAux l seen).Nodup := by
  intro l
  induction l with
  | nil => intro seen; simp [dedupAux]
  | cons x xs ih =>
    intro seen
    simp only [dedupAux]
    by_cases hx : x ∈ seen
    · rw [if_pos hx]; exact ih seen
    · rw [if_neg hx, List.nodup_cons]
      refine ⟨?_, ih (x :: seen)⟩
      intro hc
      exact ((mem_dedupAux _ _).mp hc).2 (List.mem_cons_self _ _)

theorem dedupFirst_nodup (l : List String) : (dedupFirst l).Nodup := dedupAux_nodup l []

theorem dedupAux_eq_self : ∀ (l seen : List String), l.Nodup →
    (∀ a ∈ l, a ∉ seen) → dedupAux l seen = l := by
  intro l
  induction l with
  | nil => intro seen _ _; rfl
  | cons x xs ih =>
    intro seen hnd hdis
    rw [List.nodup_cons] at hnd
    simp only [dedupAux, if_neg (hdis x (List.mem_cons_self _ _))]
    congr 1
    refine ih (x :: seen) hnd.2 ?_
    intro a ha hc
    rcases List.mem_cons.mp hc with rfl | hc
    · exact hnd.1 ha
    · exact hdis a (List.mem_cons_of_mem _ ha) hc

theorem dedupFirst_idem (l : List String) : dedupFirst (dedupFirst l) = dedupFirst l :=
  dedupAux_eq_self _ [] (dedupFirst_nodup l) (by simp)

theorem dedupAux_append_single (x : String) : ∀ (l seen : List String),
    dedupAux (l ++ [x]) seen =
      dedupAux l seen ++ (if x ∈ seen ∨ x ∈ l then [] else [x]) := by
  intro l
  induction l with
  | nil =>
    intro seen
    by_cases h : x ∈ seen <;> simp [dedupAux, h]
  | cons y ys ih =>
    intro seen
    simp only [List.cons_append, dedupAux, List.append_eq]
    by_cases hy : y ∈ seen
    · rw [if_pos hy, if_pos hy, ih seen]
      congr 1
      by_cases h2 : x ∈ seen
      · simp [h2]
      · have hxy : x ≠ y := fun hh => h2 (hh ▸ hy)
        by_cases h3 : x ∈ ys <;> simp [List.mem_cons, h2, h3, hxy]
    · rw [if_neg hy, if_neg hy, ih (y :: seen), List.cons_append]
      congr 2
      by_cases h1 : x = y
      · subst h1; simp [List.mem_cons]
      · by_cases h2 : x ∈ seen <;> by_cases h3 : x ∈ ys <;>
          simp [List.mem_cons, h1, h2, h3]

theorem dedupFirst_append_mem {l : List String} {x : String} (h : x ∈ l) :
    dedupFirst (l ++ [x]) = dedupFirst l := by
  rw [dedupFirst, dedupAux_append_single, if_pos (Or.inr h), List.append_nil]
  rfl

/-- The success form of the entry point: with a non-empty filtered
vocabulary, `createOptimizedRegex` returns the (optionally `\b`-wrapped)
fragment compiled from the trie over the deduplicated vocabulary. -/
theorem createOptimizedRegex_ok (xs : List JSVal) (opts : RegexOptions)
    (h : filterStrings xs ≠ []) :
    createOptimizedRegex (some xs) opts =
      .ok (if opts.wordBoundaries then
             "\\b" ++ trieToRegex
               (buildTrie (dedupFirst (filterStrings xs)) opts.caseInsensitive) ++ "\\b"
           else trieToRegex
             (buildTrie (dedupFirst (filterStrings xs)) opts.caseInsensitive)) := by
  have hxs : xs.isEmpty = false := by
    cases xs with
    | nil => simp [filterStrings] at h
    | cons a l => rfl
  have hdd : (dedupFirst (filterStrings xs)).isEmpty = false := by
    rw [List.isEmpty_eq_false, Ne, dedupFirst_eq_nil_iff]
    exact h
  simp only [createOptimizedRegex, hxs, hdd, Bool.false_eq_true, if_false]
  split <;> rfl

theorem processString_data_ne_nil {ci : Bool} {s : String} (h : s ≠ "") :
    (processString ci s).data ≠ [] := by
  have hd : s.data ≠ [] := fun hc => h (String.ext_iff.mpr (by simp [hc]))
  cases ci
  · simpa [processString] using hd
  · simp only [processString, if_true]
    intro hc
    exact hd (List.map_eq_nil_iff.mp hc)

theorem children_ne_nil_of_memB {t : TrieNode} {c : Char} {rest : List Char}
    (h : t.memB (c :: rest) = true) : t.children ≠ [] := by
  obtain ⟨e, cs⟩ := t
  intro hc
  simp only [TrieNode.children] at hc
  subst hc
  simp [TrieNode.memB, lookupChild] at h

theorem buildTrie_children_ne_nil {V : List String} (ci : Bool) (hV : V ≠ [])
    (hne : ∀ v ∈ V, v ≠ "") : (buildTrie V ci).children ≠ [] := by
  obtain ⟨v0, hv0⟩ := List.exists_mem_of_ne_nil V hV
  have hmem : (buildTrie V ci).memB ((processString ci v0).data) = true :=
    (memB_buildTrie V ci _).mpr ⟨v0, hv0, rfl⟩
  cases hdata : (processString ci v0).data with
  | nil => exact absurd hdata (processString_data_ne_nil (hne v0 hv0))
  | cons c rest =>
    rw [hdata] at hmem
    exact children_ne_nil_of_memB hmem

/-- C1: for an input whose filtered, deduplicated vocabulary `V` is
non-empty and options `{wordBoundaries: false}`, `createOptimizedRegex`
returns a pattern that is the serialization of a regex accepting, as a
whole-string match, exactly the members of `V` (processed by lowercasing
when `caseInsensitive` is set). -/
theorem c1_compile_whole_match (xs : List JSVal) (ci : Bool)
    (h : filterStrings xs ≠ []) :
    ∃ p : String, createOptimizedRegex (some xs) ⟨false, ci⟩ = .ok p ∧
      ∃ r : Regex, r.print = p ∧
        ∀ s : List Char,
          RMatch r s ↔
            ∃ v ∈ dedupFirst (filterStrings xs), s = (processString ci v).data := by
  have hok := createOptimizedRegex_ok xs ⟨false, ci⟩ h
  simp only [Bool.false_eq_true, if_false] at hok
  have hV : dedupFirst (filterStrings xs) ≠ [] := by
    rw [Ne, dedupFirst_eq_nil_iff]
    exact h
  have hVne : ∀ v ∈ dedupFirst (filterStrings xs), v ≠ "" := fun v hv =>
    ne_empty_of_mem_filterStrings (mem_dedupFirst.mp hv)
  have hroot := buildTrie_children_ne_nil ci hV hVne
  refine ⟨_, hok, trieAST (buildTrie (dedupFirst (filterStrings xs)) ci),
    trieAST_print _, ?_⟩
  intro s
  rw [RMatch_trieAST _ (WF_buildTrie _ ci) (Valid_buildTrie _ ci) hroot s,
    memB_buildTrie]
  constructor
  · rintro ⟨⟨v, hv, rfl⟩, _⟩
    exact ⟨v, hv, rfl⟩
  · rintro ⟨v, hv, rfl⟩
    exact ⟨⟨v, hv, rfl⟩, processString_data_ne_nil (hVne v hv)⟩

theorem c1_witness :
    filterStrings [JSVal.str "ab", JSVal.str "a"] ≠ [] ∧
    (∃ p : String,
      createOptimizedRegex (some [JSVal.str "ab", JSVal.str "a"]) ⟨false, false⟩ = .ok p ∧
      ∃ r : Regex, r.print = p ∧
        ∀ s : List Char,
          RMatch r s ↔
            ∃ v ∈ dedupFirst (filterStrings [JSVal.str "ab", JSVal.str "a"]),
              s = (processString false v).data) :=
  ⟨by decide, c1_compile_whole_match [JSVal.str "ab", JSVal.str "a"] false (by decide)⟩

/-- C3: `createOptimizedRegex` fails (with one of its two thrown messages,
both covered by the spec's `InvalidInputError`) exactly when the input is
not an array or the filtered vocabulary is empty; on every other input it
returns a pattern.  The inputs `[]` and lists of empty strings fall under
the second disjunct. -/
theorem c3_invalid_input_iff (strings : Option (List JSVal)) (opts : RegexOptions) :
    (∃ e, createOptimizedRegex strings opts = .error e) ↔
      (strings = none ∨ ∃ xs, strings = some xs ∧ filterStrings xs = []) := by
  cases strings with
  | none => simp [createOptimizedRegex]
  | some xs =>
    constructor
    · rintro ⟨e, he⟩
      by_cases h : filterStrings xs = []
      · exact Or.inr ⟨xs, rfl, h⟩
      · rw [createOptimizedRegex_ok xs opts h] at he
        cases he
    · rintro (hc | ⟨xs', hx, hf⟩)
      · cases hc
      · cases hx
        cases xs with
        | nil => exact ⟨_, rfl⟩
        | cons a l =>
          have hdd : dedupFirst (filterStrings (a :: l)) = [] := by rw [hf]; rfl
          refine ⟨"No valid strings provided", ?_⟩
          simp [createOptimizedRegex, hdd]

/-! Word-boundary semantics for the wrapped pattern `\b body \b`: the wrap
matches inside a text at span `i..j` exactly when the body matches the span
and both endpoints are word boundaries. -/

def isWordChar (c : Char) : Bool := c.isAlphanum || c = '_'

def wordAt (t : List Char) (k : Nat) : Bool :=
  match t[k]? with
  | some c => isWordChar c
  | none => false

/-- Word boundary `\b` holds at position `k` of `t`: exactly one side of the position is a
word character (positions outside the text count as non-word). -/
def boundaryAt (t : List Char) (k : Nat) : Bool :=
  (if k = 0 then false else wordAt t (k - 1)) != wordAt t k

/-- Search semantics of `"\\b" ++ P.print ++ "\\b"` inside text `t`: some
span of `t` matches `P` with word boundaries at both ends. -/
def matchesWithBoundaries (P : Regex) (t : List Char) : Bool :=
  (List.range (t.length + 1)).any fun i =>
    (List.range (t.length + 1)).any fun j =>
      decide (i ≤ j) && boundaryAt t i && boundaryAt t j &&
        P.rmatch ((t.drop i).take (j - i))

/-- C5: with `wordBoundaries` true (the default of the options object), the
returned pattern is `\b` ++ body ++ `\b` for the body returned with
`wordBoundaries: false`; and for input `["foo"]` with default options the
wrapped pattern matches the standalone `foo` in `"a foo b"` but finds no
boundary-delimited `foo` inside `"barfoox"`. -/
theorem c5_boundary_wrapping (xs : List JSVal) (ci : Bool)
    (h : filterStrings xs ≠ []) :
    (∀ body, createOptimizedRegex (some xs) ⟨false, ci⟩ = .ok body →
      createOptimizedRegex (some xs) ⟨true, ci⟩ = .ok ("\\b" ++ body ++ "\\b")) ∧
    ({} : RegexOptions).wordBoundaries = true ∧
    createOptimizedRegex (some [JSVal.str "foo"]) {} =
      .ok ("\\b" ++ (trieAST (buildTrie ["foo"] false)).print ++ "\\b") ∧
    matchesWithBoundaries (trieAST (buildTrie ["foo"] false)) "a foo b".data = true ∧
    matchesWithBoundaries (trieAST (buildTrie ["foo"] false)) "barfoox".data = false := by
  refine ⟨?_, rfl, rfl, by decide, by decide⟩
  intro body hb
  rw [createOptimizedRegex_ok xs ⟨false, ci⟩ h] at hb
  simp only [Bool.false_eq_true, if_false] at hb
  cases hb
  rw [createOptimizedRegex_ok xs ⟨true, ci⟩ h]
  rfl

theorem c5_witness :
    filterStrings [JSVal.str "x"] ≠ [] ∧
    ((∀ body, createOptimizedRegex (some [JSVal.str "x"]) ⟨false, false⟩ = .ok body →
      createOptimizedRegex (some [JSVal.str "x"]) ⟨true, false⟩ =
        .ok ("\\b" ++ body ++ "\\b")) ∧
    ({} : RegexOptions).wordBoundaries = true ∧
    createOptimizedRegex (some [JSVal.str "foo"]) {} =
      .ok ("\\b" ++ (trieAST (buildTrie ["foo"] false)).print ++ "\\b") ∧
    matchesWithBoundaries (trieAST (buildTrie ["foo"] false)) "a foo b".data = true ∧
    matchesWithBoundaries (trieAST (buildTrie ["foo"] false)) "barfoox".data = false) :=
  ⟨by decide, c5_boundary_wrapping [JSVal.str "x"] false (by decide)⟩

/-- C7: compilation first filters and deduplicates, so compiling the
filtered, deduplicated vocabulary gives the same result as compiling the
raw input, and appending a non-usable value or a duplicate of an already
present string leaves the output unchanged. -/
theorem c7_filter_dedup (xs : List JSVal) (opts : RegexOptions)
    (h : filterStrings xs ≠ []) :
    createOptimizedRegex (some ((dedupFirst (filterStrings xs)).map JSVal.str)) opts =
      createOptimizedRegex (some xs) opts ∧
    (∀ v : JSVal, keepVal v = none →
      createOptimizedRegex (some (xs ++ [v])) opts = createOptimizedRegex (some xs) opts) ∧
    (∀ s ∈ filterStrings xs,
      createOptimizedRegex (some (xs ++ [JSVal.str s])) opts =
        createOptimizedRegex (some xs) opts) := by
  refine ⟨?_, ?_, ?_⟩
  · have hfd : filterStrings ((dedupFirst (filterStrings xs)).map JSVal.str)
        = dedupFirst (filterStrings xs) :=
      filterStrings_map_str _
        (fun s hs => ne_empty_of_mem_filterStrings (mem_dedupFirst.mp hs))
    have h1 : filterStrings ((dedupFirst (filterStrings xs)).map JSVal.str) ≠ [] := by
      rw [hfd, Ne, dedupFirst_eq_nil_iff]
      exact h
    rw [createOptimizedRegex_ok _ opts h1, createOptimizedRegex_ok xs opts h, hfd,
      dedupFirst_idem]
  · intro v hv
    have hxv : filterStrings (xs ++ [v]) = filterStrings xs := by
      rw [filterStrings_append]
      simp [filterStrings, List.filterMap_cons, hv]
    have h2 : filterStrings (xs ++ [v]) ≠ [] := by rw [hxv]; exact h
    rw [createOptimizedRegex_ok _ opts h2, createOptimizedRegex_ok xs opts h, hxv]
  · intro s hs
    have hsne := ne_empty_of_mem_filterStrings hs
    have hfa : filterStrings (xs ++ [JSVal.str s]) = filterStrings xs ++ [s] := by
      rw [filterStrings_append]
      simp [filterStrings, List.filterMap_cons, keepVal, isEmpty_false_of_ne hsne]
    have h2 : filterStrings (xs ++ [JSVal.str s]) ≠ [] := by rw [hfa]; simp
    rw [createOptimizedRegex_ok _ opts h2, createOptimizedRegex_ok xs opts h, hfa,
      dedupFirst_append_mem hs]

theorem c7_witness :
    filterStrings [JSVal.str "ab"] ≠ [] ∧
    (createOptimizedRegex (some ((dedupFirst (filterStrings [JSVal.str "ab"])).map JSVal.str)) {} =
      createOptimizedRegex (some [JSVal.str "ab"]) {} ∧
    (∀ v : JSVal, keepVal v = none →
      createOptimizedRegex (some ([JSVal.str "ab"] ++ [v])) {} =
        createOptimizedRegex (some [JSVal.str "ab"]) {}) ∧
    (∀ s ∈ filterStrings [JSVal.str "ab"],
      createOptimizedRegex (some ([JSVal.str "ab"] ++ [JSVal.str s])) {} =
        createOptimizedRegex (some [JSVal.str "ab"]) {})) :=
  ⟨by decide, c7_filter_dedup [JSVal.str "ab"] {} (by decide)⟩

theorem trieAlts_eq_map_of_valid : ∀ (cs : List (Char × TrieNode)),
    (∀ c u, (c, u) ∈ cs → (u.isEndOfWord = true ∨ u.children ≠ []) ∧ u.Valid) →
    trieAlts cs = cs.map (fun p =>
      if p.2.isEndOfWord && p.2.children.isEmpty then escapeRegexChar p.1
      else if p.2.isEndOfWord then
        escapeRegexChar p.1 ++ "(?:" ++ trieToRegex p.2 ++ ")?"
      else escapeRegexChar p.1 ++ trieToRegex p.2) := by
  intro cs
  induction cs with
  | nil => intro _; rfl
  | cons p rest ih =>
    intro h
    obtain ⟨c, u⟩ := p
    have hcu := h c u (List.mem_cons_self _ _)
    have hca : childAlt c u (trieToRegex u) = some (
        if u.isEndOfWord && u.children.isEmpty then escapeRegexChar c
        else if u.isEndOfWord then
          escapeRegexChar c ++ "(?:" ++ trieToRegex u ++ ")?"
        else escapeRegexChar c ++ trieToRegex u) := by
      by_cases he : u.isEndOfWord = true
      · by_cases hc2 : u.children.isEmpty = true
        · simp [childAlt, he, hc2]
        · rw [Bool.not_eq_true] at hc2
          have hc3 : u.children ≠ [] := by
            rw [← List.isEmpty_eq_false]
            exact hc2
          have hp := trieToRegex_ne_empty u hcu.2 hc3
          simp [childAlt, he, hc2, hp]
      · rw [Bool.not_eq_true] at he
        have hc3 : u.children ≠ [] := by
          rcases hcu.1 with h1 | h1
          · rw [he] at h1; cases h1
          · exact h1
        have hc2 : u.children.isEmpty = false := by
          rw [List.isEmpty_eq_false]
          exact hc3
        simp [childAlt, he, hc2]
    simp only [trieAlts, hca, List.map_cons, List.singleton_append]
    rw [ih (fun c' u' hm => h c' u' (List.mem_cons_of_mem _ hm))]

/-- C2: on every (program-constructed, hence `Valid`) trie node, the
compiler emits per child in insertion order the escaped character alone for
a complete leaf, the escaped character with an optional non-capturing group
for a complete word with continuations, the escaped character concatenated
with the child fragment otherwise, and combines zero alternatives into the
empty fragment, one unwrapped, two or more `|`-joined inside `(?:...)`. -/
theorem c2_emission_shape (t : TrieNode) (hv : t.Valid) :
    trieToRegex t =
      match t.children.map (fun p =>
        if p.2.isEndOfWord && p.2.children.isEmpty then escapeRegexChar p.1
        else if p.2.isEndOfWord then
          escapeRegexChar p.1 ++ "(?:" ++ trieToRegex p.2 ++ ")?"
        else escapeRegexChar p.1 ++ trieToRegex p.2) with
      | [] => ""
      | [a] => a
      | alts => "(?:" ++ String.intercalate "|" alts ++ ")" := by
  obtain ⟨e, cs⟩ := t
  have halts := trieAlts_eq_map_of_valid cs (fun c u hm => hv.childValid hm)
  cases cs with
  | nil => rfl
  | cons p rest =>
    simp only [TrieNode.children] at halts ⊢
    simp only [trieToRegex, List.isEmpty_cons, Bool.false_eq_true, if_false, halts]

theorem c2_witness :
    trieToRegex (buildTrie ["ab", "ac"] false) =
      match (buildTrie ["ab", "ac"] false).children.map (fun p =>
        if p.2.isEndOfWord && p.2.children.isEmpty then escapeRegexChar p.1
        else if p.2.isEndOfWord then
          escapeRegexChar p.1 ++ "(?:" ++ trieToRegex p.2 ++ ")?"
        else escapeRegexChar p.1 ++ trieToRegex p.2) with
      | [] => ""
      | [a] => a
      | alts => "(?:" ++ String.intercalate "|" alts ++ ")" :=
  c2_emission_shape (buildTrie ["ab", "ac"] false) (Valid_buildTrie ["ab", "ac"] false)

/-- The relation `TrieNode.Sub u t`: `u` is `t` itself or a node below it. -/
inductive TrieNode.Sub : TrieNode → TrieNode → Prop where
  | refl (t : TrieNode) : TrieNode.Sub t t
  | child {u v t : TrieNode} {c : Char} :
      TrieNode.Sub u v → (c, v) ∈ t.children → TrieNode.Sub u t

theorem Valid_child_any {t u : TrieNode} {c : Char} (h : t.Valid)
    (hm : (c, u) ∈ t.children) :
    (u.isEndOfWord = true ∨ u.children ≠ []) ∧ u.Valid := by
  obtain ⟨e, cs⟩ := t
  exact h.childValid hm

theorem Valid_of_Sub : ∀ {u t : TrieNode}, TrieNode.Sub u t → t.Valid → u.Valid := by
  intro u t h
  induction h with
  | refl => exact id
  | child hsub hmem ih => exact fun hv => ih (Valid_child_any hv hmem).2

theorem prop_of_Sub : ∀ {u t : TrieNode}, TrieNode.Sub u t → t.Valid →
    u = t ∨ (u.isEndOfWord = true ∨ u.children ≠ []) := by
  intro u t h
  induction h with
  | refl => exact fun _ => Or.inl rfl
  | child hsub hmem ih =>
    intro hv
    rcases ih (Valid_child_any hv hmem).2 with rfl | hp
    · exact Or.inr (Valid_child_any hv hmem).1
    · exact Or.inr hp

/-- C10: in every built trie, every node strictly below the root that is not
an end of word has a child; the fragment of any node (of a built trie) with
children is non-empty; hence neither the empty-fragment fallback for an
end-of-word child with children nor the silent drop of a childless
non-end-of-word child is reachable. -/
theorem c10_invariants :
    (∀ (ss : List String) (ci : Bool) (u v : TrieNode) (c : Char),
      (c, v) ∈ (buildTrie ss ci).children → TrieNode.Sub u v →
      u.isEndOfWord = false → u.children ≠ []) ∧
    (∀ (ss : List String) (ci : Bool) (u : TrieNode),
      TrieNode.Sub u (buildTrie ss ci) → u.children ≠ [] → trieToRegex u ≠ "") ∧
    (∀ (ss : List String) (ci : Bool) (t u : TrieNode) (c : Char),
      TrieNode.Sub t (buildTrie ss ci) → (c, u) ∈ t.children →
      childAlt c u (trieToRegex u) ≠ none ∧
      ¬(u.isEndOfWord = true ∧ u.children ≠ [] ∧ trieToRegex u = "")) := by
  refine ⟨?_, ?_, ?_⟩
  · intro ss ci u v c hmem hsub hend
    have hvv := (Valid_child_any (Valid_buildTrie ss ci) hmem)
    rcases prop_of_Sub hsub hvv.2 with rfl | hp
    · rcases hvv.1 with h1 | h1
      · rw [hend] at h1; cases h1
      · exact h1
    · rcases hp with h1 | h1
      · rw [hend] at h1; cases h1
      · exact h1
  · intro ss ci u hsub hch
    exact trieToRegex_ne_empty u (Valid_of_Sub hsub (Valid_buildTrie ss ci)) hch
  · intro ss ci t u c hsub hmem
    have hvt := Valid_of_Sub hsub (Valid_buildTrie ss ci)
    have hvc := Valid_child_any hvt hmem
    constructor
    · rcases childAlt_isSome c (trieToRegex u) hvc.1 with ⟨a, ha⟩
      rw [ha]
      exact Option.some_ne_none a
    · rintro ⟨-, hch, hemp⟩
      exact trieToRegex_ne_empty u hvc.2 hch hemp

theorem c10_witness :
    (TrieNode.node false [('b', TrieNode.node true [])]).children ≠ [] ∧
    trieToRegex (buildTrie ["ab"] false) ≠ "" :=
  ⟨c10_invariants.1 ["ab"] false _ _ 'a' (List.Mem.head _) (TrieNode.Sub.refl _) rfl,
   c10_invariants.2.1 ["ab"] false _ (TrieNode.Sub.refl _)
     (fun hh => List.noConfusion hh)⟩

/-! Lexical structure of emitted patterns: every pattern is a sequence of
three kinds of tokens — an escape (`\` plus one character), a plain
character that is neither `(` nor `\`, or a non-capturing group opener
`(?:`.  This rules out capturing groups and inline modifiers. -/

inductive TokenSeq : List Char → Prop where
  | nil : TokenSeq []
  | esc (c : Char) {rest : List Char} : TokenSeq rest → TokenSeq ('\\' :: c :: rest)
  | chr {c : Char} {rest : List Char} :
      c ≠ '(' → c ≠ '\\' → TokenSeq rest → TokenSeq (c :: rest)
  | grp {rest : List Char} : TokenSeq rest → TokenSeq ('(' :: '?' :: ':' :: rest)

theorem TokenSeq.append : ∀ {l1 l2 : List Char},
    TokenSeq l1 → TokenSeq l2 → TokenSeq (l1 ++ l2) := by
  intro l1 l2 h1 h2
  induction h1 with
  | nil => exact h2
  | esc c h ih => exact .esc c ih
  | chr hc1 hc2 h ih => exact .chr hc1 hc2 ih
  | grp h ih => exact .grp ih

theorem tokenSeq_append_str {a b : String}
    (ha : TokenSeq a.data) (hb : TokenSeq b.data) : TokenSeq (a ++ b).data := by
  rw [String.data_append]
  exact ha.append hb

theorem tokenSeq_escapeRegexChar (c : Char) : TokenSeq (escapeRegexChar c).data := by
  unfold escapeRegexChar
  split
  · rw [String.data_append, String.data_singleton]
    exact .esc c .nil
  · rw [String.data_singleton]
    rename_i h
    have h1 : c ≠ '(' := fun hc => h (by rw [hc]; rfl)
    have h2 : c ≠ '\\' := fun hc => h (by rw [hc]; rfl)
    exact .chr h1 h2 .nil

theorem tokenSeq_group_open : TokenSeq "(?:".data := .grp .nil

theorem tokenSeq_close_opt : TokenSeq ")?".data :=
  .chr (by decide) (by decide) (.chr (by decide) (by decide) .nil)

theorem tokenSeq_close : TokenSeq ")".data := .chr (by decide) (by decide) .nil

theorem tokenSeq_bar : TokenSeq "|".data := .chr (by decide) (by decide) .nil

theorem tokenSeq_backslash_b : TokenSeq "\\b".data := .esc 'b' .nil

theorem tokenSeq_intercalate : ∀ l : List String,
    (∀ a ∈ l, TokenSeq a.data) → TokenSeq (String.intercalate "|" l).data := by
  intro l
  induction l with
  | nil => intro _; exact .nil
  | cons a rest ih =>
    intro h
    cases rest with
    | nil => exact h a (List.mem_cons_self _ _)
    | cons b rest2 =>
      rw [intercalate_cons_cons]
      refine tokenSeq_append_str (tokenSeq_append_str ?_ tokenSeq_bar) ?_
      · exact h a (List.mem_cons_self _ _)
      · exact ih (fun x hx => h x (List.mem_cons_of_mem _ hx))

theorem tokenSeq_childAlt {c : Char} {u : TrieNode} {p a : String}
    (hp : TokenSeq p.data) (h : childAlt c u p = some a) : TokenSeq a.data := by
  unfold childAlt at h
  split at h
  · cases h; exact tokenSeq_escapeRegexChar c
  · split at h
    · split at h
      · cases h
        exact tokenSeq_append_str
          (tokenSeq_append_str (tokenSeq_append_str (tokenSeq_escapeRegexChar c)
            tokenSeq_group_open) hp) tokenSeq_close_opt
      · cases h; exact tokenSeq_escapeRegexChar c
    · split at h
      · cases h
        exact tokenSeq_append_str (tokenSeq_escapeRegexChar c) hp
      · cases h

theorem tokenSeq_trieToRegex : ∀ t : TrieNode, TokenSeq (trieToRegex t).data := by
  refine TrieNode.inductionOn ?_
  intro e cs ih
  have halts : ∀ a ∈ trieAlts cs, TokenSeq a.data := by
    intro a ha
    rw [trieAlts_eq_filterMap, List.mem_filterMap] at ha
    rcases ha with ⟨⟨c, u⟩, hm, hca⟩
    exact tokenSeq_childAlt (ih c u hm) hca
  simp only [trieToRegex]
  split
  · exact .nil
  · cases hl : trieAlts cs with
    | nil => exact .nil
    | cons a rest =>
      cases rest with
      | nil => exact halts a (by rw [hl]; exact List.mem_cons_self _ _)
      | cons b rest2 =>
        refine tokenSeq_append_str (tokenSeq_append_str tokenSeq_group_open ?_)
          tokenSeq_close
        rw [← hl]
        exact tokenSeq_intercalate _ halts

/-- Scanner over an emitted pattern: every unescaped `(` must begin a
non-capturing group `(?:`.  An escape consumes the following character. -/
def scanGroups : List Char → Bool
  | [] => true
  | ['\\'] => true
  | '\\' :: _ :: rest2 => scanGroups rest2
  | '(' :: q :: r :: rest2 => q = '?' && r = ':' && scanGroups rest2
  | '(' :: _ => false
  | _ :: rest => scanGroups rest

theorem scanGroups_of_tokenSeq : ∀ {l : List Char}, TokenSeq l → scanGroups l = true := by
  intro l h
  induction h with
  | nil => rfl
  | esc c h ih => simpa [scanGroups] using ih
  | chr hc1 hc2 h ih => simpa [scanGroups, hc1, hc2] using ih
  | grp h ih => simpa [scanGroups] using ih

theorem tokenSeq_pattern {xs : List JSVal} {opts : RegexOptions} {p : String}
    (h : createOptimizedRegex (some xs) opts = .ok p) : TokenSeq p.data := by
  by_cases hf : filterStrings xs = []
  · exfalso
    cases xs with
    | nil => simp [createOptimizedRegex] at h
    | cons a l =>
      have hdd : dedupFirst (filterStrings (a :: l)) = [] := by rw [hf]; rfl
      simp [createOptimizedRegex, hdd] at h
  · rw [createOptimizedRegex_ok xs opts hf] at h
    split at h <;> cases h
    · exact tokenSeq_append_str
        (tokenSeq_append_str tokenSeq_backslash_b (tokenSeq_trieToRegex _))
        tokenSeq_backslash_b
    · exact tokenSeq_trieToRegex _

/-- C9: every pattern the compiler returns contains no capturing group —
scanning it, every `(` is either consumed by a preceding escaping `\` or
begins the non-capturing opener `(?:`. -/
theorem c9_no_capturing_groups (xs : List JSVal) (opts : RegexOptions) (p : String)
    (h : createOptimizedRegex (some xs) opts = .ok p) : scanGroups p.data = true :=
  scanGroups_of_tokenSeq (tokenSeq_pattern h)

theorem c9_witness : scanGroups ("\\ba(?:\\.b|\\+c)\\b" : String).data = true :=
  c9_no_capturing_groups [JSVal.str "a.b", JSVal.str "a+c"] {} "\\ba(?:\\.b|\\+c)\\b" rfl

/-- Scanner for inline modifier groups: no unescaped `(` may be followed by
`?i` (the inline case-insensitivity modifier `(?i...`). -/
def noInlineCI : List Char → Bool
  | [] => true
  | ['\\'] => true
  | '\\' :: _ :: rest2 => noInlineCI rest2
  | '(' :: q :: r :: rest2 => !(q = '?' && r = 'i') && noInlineCI (q :: r :: rest2)
  | '(' :: rest => noInlineCI rest
  | _ :: rest => noInlineCI rest

theorem noInlineCI_of_tokenSeq : ∀ {l : List Char}, TokenSeq l → noInlineCI l = true := by
  intro l h
  induction h with
  | nil => rfl
  | esc c h ih => simpa [noInlineCI] using ih
  | chr hc1 hc2 h ih => simpa [noInlineCI, hc1, hc2] using ih
  | grp h ih =>
    rename_i rest
    show noInlineCI ('(' :: '?' :: ':' :: rest) = true
    have h1 : noInlineCI ('?' :: ':' :: rest) = noInlineCI (':' :: rest) := by
      simp [noInlineCI]
    have h2 : noInlineCI (':' :: rest) = noInlineCI rest := by
      simp [noInlineCI]
    simp [noInlineCI, h1, h2, ih]

/-- Maps a function over the literal characters of a regex. -/
def Regex.mapChars (f : Char → Char) : Regex → Regex
  | .fail => .fail
  | .eps => .eps
  | .char c => .char (f c)
  | .cat r s => .cat (r.mapChars f) (s.mapChars f)
  | .alt r s => .alt (r.mapChars f) (s.mapChars f)
  | .opt r => .opt (r.mapChars f)
  | .group r => .group (r.mapChars f)

/-- Case-insensitive matching mode for a regex: literal characters and the
subject are compared through lowercasing. -/
def rmatchCI (r : Regex) (s : List Char) : Bool :=
  (r.mapChars Char.toLower).rmatch (s.map Char.toLower)

/-- C6: with `caseInsensitive` set the compiler lowercases every string
before trie insertion (so compiling equals compiling the lowercased
vocabulary case-sensitively); the emitted pattern carries no inline
case-insensitivity modifier; and the pattern for `["Abs"]` under a
case-insensitive match mode accepts `"abs"`, `"ABS"` and `"Abs"`. -/
theorem c6_case_insensitive :
    (∀ ss : List String, buildTrie ss true = buildTrie (ss.map jsToLower) false) ∧
    (∀ (xs : List JSVal) (opts : RegexOptions) (p : String),
      createOptimizedRegex (some xs) opts = .ok p → noInlineCI p.data = true) ∧
    createOptimizedRegex (some [JSVal.str "Abs"]) ⟨false, true⟩ = .ok "abs" ∧
    (∃ r : Regex, r.print = "abs" ∧
      rmatchCI r "abs".data = true ∧ rmatchCI r "ABS".data = true ∧
      rmatchCI r "Abs".data = true) := by
  refine ⟨?_, ?_, rfl, trieAST (buildTrie ["Abs"] true), rfl, by decide, by decide,
    by decide⟩
  · intro ss
    simp [buildTrie, processString, List.foldl_map]
  · intro xs opts p h
    exact noInlineCI_of_tokenSeq (tokenSeq_pattern h)

theorem c6_witness : noInlineCI ("abs" : String).data = true :=
  c6_case_insensitive.2.1 [JSVal.str "Abs"] ⟨false, true⟩ "abs" rfl

theorem insert_empty_cons (c : Char) (rest : List Char) :
    (TrieNode.node false []).insert (c :: rest) =
      TrieNode.node false [(c, (TrieNode.node false []).insert rest)] := rfl

/-- The pattern compiled from a single word is the concatenation of its
escaped characters. -/
theorem trieToRegex_chain : ∀ w : List Char, w ≠ [] →
    trieToRegex ((TrieNode.node false []).insert w) =
      w.foldr (fun c acc => escapeRegexChar c ++ acc) "" := by
  intro w
  induction w with
  | nil => intro h; exact absurd rfl h
  | cons c rest ih =>
    intro _
    rw [insert_empty_cons]
    cases rest with
    | nil =>
      show escapeRegexChar c = escapeRegexChar c ++ ""
      rw [String.append_empty]
    | cons c2 rest2 =>
      rw [insert_empty_cons]
      show escapeRegexChar c ++
        trieToRegex (TrieNode.node false [(c2, (TrieNode.node false []).insert rest2)]) = _
      rw [← insert_empty_cons, ih (by simp), List.foldr_cons]
      rfl

/-- C4: `escapeRegexChar` backslash-escapes exactly the metacharacter set
and leaves other characters unchanged; a single-string pattern is the
concatenation of its escaped characters; and the pattern for
`["a.b", "a+c"]` (boundaries disabled) matches the two literals and
neither `"axb"` nor `"axc"`. -/
theorem c4_escaping :
    (∀ c : Char, isSpecialChar c = true → escapeRegexChar c = "\\" ++ String.singleton c) ∧
    (∀ c : Char, isSpecialChar c = false → escapeRegexChar c = String.singleton c) ∧
    (∀ s : String, s ≠ "" →
      createOptimizedRegex (some [JSVal.str s]) ⟨false, false⟩ =
        .ok (s.data.foldr (fun c acc => escapeRegexChar c ++ acc) "")) ∧
    (∃ r : Regex, r.print = "a(?:\\.b|\\+c)" ∧
      createOptimizedRegex (some [JSVal.str "a.b", JSVal.str "a+c"]) ⟨false, false⟩ =
        .ok "a(?:\\.b|\\+c)" ∧
      RMatch r "a.b".data ∧ RMatch r "a+c".data ∧
      ¬ RMatch r "axb".data ∧ ¬ RMatch r "axc".data) := by
  refine ⟨?_, ?_, ?_, trieAST (buildTrie ["a.b", "a+c"] false), rfl, rfl, ?_, ?_, ?_, ?_⟩
  · intro c hc
    simp [escapeRegexChar, hc]
  · intro c hc
    simp [escapeRegexChar, hc]
  · intro s hs
    have hfe : filterStrings [JSVal.str s] = [s] := by
      simp [filterStrings, keepVal, isEmpty_false_of_ne hs]
    rw [createOptimizedRegex_ok _ _ (by rw [hfe]; simp)]
    simp only [Bool.false_eq_true, if_false, hfe]
    have hdd : dedupFirst [s] = [s] := rfl
    rw [hdd]
    have hbt : buildTrie [s] false = (TrieNode.node false []).insert s.data := rfl
    rw [hbt, trieToRegex_chain s.data (fun hc => hs (String.ext_iff.mpr (by simp [hc])))]
  · exact (rmatch_iff _ _).mp (by decide)
  · exact (rmatch_iff _ _).mp (by decide)
  · exact fun hm => absurd ((rmatch_iff _ _).mpr hm) (by decide)
  · exact fun hm => absurd ((rmatch_iff _ _).mpr hm) (by decide)

theorem c4_witness :
    createOptimizedRegex (some [JSVal.str "a.b"]) ⟨false, false⟩ =
      .ok (("a.b" : String).data.foldr (fun c acc => escapeRegexChar c ++ acc) "") :=
  c4_escaping.2.2.1 "a.b" (by decide)

/-- One rule object of the `standard` array of the SLua grammar. -/
structure GrammarRule where
  name : String
  matchPat : String
deriving DecidableEq, Repr

/-- One conditional
`if (vocab.length) standard.push({name, match: '(?<![^.]\.|:)' + createOptimizedRegex(vocab)})`
from the source; an exception thrown by the compiler propagates. -/
def pushRule (rules : List GrammarRule) (ruleName : String) (vocab : List String) :
    Except String (List GrammarRule) :=
  if vocab.length ≠ 0 then
    match createOptimizedRegex (some (vocab.map JSVal.str)) {} with
    | .error e => .error e
    | .ok p => .ok (rules ++ [⟨ruleName, "(?<![^.]\\.|:)" ++ p⟩])
  else .ok rules

/-- The construction of `standard_library.patterns` for the SLua grammar:
the six vocabularies (global, Luau-library and platform-library functions
and constants) in source order.  The vocabularies themselves come from the
YAML data files and are parameters here. -/
def mkStandardRules (globalFunctions globalConstants luauFunctions luauConstants
    platformFunctions platformConstants : List String) :
    Except String (List GrammarRule) := do
  let r1 ← pushRule [] "support.function.luau" globalFunctions
  let r2 ← pushRule r1 "constant.language.luau" globalConstants
  let r3 ← pushRule r2 "support.function.luau" luauFunctions
  let r4 ← pushRule r3 "support.constant.luau" luauConstants
  let r5 ← pushRule r4 "support.function.luau" platformFunctions
  let r6 ← pushRule r5 "support.constant.luau" platformConstants
  pure r6

theorem pushRule_spec {rules : List GrammarRule} {nm : String} {vocab : List String}
    {out : List GrammarRule} (P : GrammarRule → Prop)
    (hrules : ∀ g ∈ rules, P g)
    (hnew : ∀ p, createOptimizedRegex (some (vocab.map JSVal.str)) {} = .ok p →
      P ⟨nm, "(?<![^.]\\.|:)" ++ p⟩)
    (h : pushRule rules nm vocab = .ok out) : ∀ g ∈ out, P g := by
  unfold pushRule at h
  split at h
  · cases hc : createOptimizedRegex (some (vocab.map JSVal.str)) {} with
    | error e => rw [hc] at h; cases h
    | ok p =>
      rw [hc] at h
      cases h
      intro g hg
      rcases List.mem_append.mp hg with h1 | h1
      · exact hrules g h1
      · rw [List.mem_singleton] at h1
        subst h1
        exact hnew p hc
  · cases h
    exact hrules

/-- C8: every rule the pipeline writes into the SLua standard-library
patterns has as its match value the negative lookbehind `(?<![^.]\.|:)`
concatenated with the pattern `createOptimizedRegex` returned for one of
the six vocabularies; the compiled pattern itself contains no lookbehind
(every unescaped `(` in it opens `(?:`), so the lookbehind comes from the
caller alone. -/
theorem c8_lookbehind (gf gc lf lc pf pc : List String) (rules : List GrammarRule)
    (h : mkStandardRules gf gc lf lc pf pc = .ok rules) :
    ∀ g ∈ rules, ∃ vocab p, vocab ∈ [gf, gc, lf, lc, pf, pc] ∧
      createOptimizedRegex (some (vocab.map JSVal.str)) {} = .ok p ∧
      g.matchPat = "(?<![^.]\\.|:)" ++ p ∧ scanGroups p.data = true := by
  classical
  set P : GrammarRule → Prop := fun g =>
    ∃ vocab p, vocab ∈ [gf, gc, lf, lc, pf, pc] ∧
      createOptimizedRegex (some (vocab.map JSVal.str)) {} = .ok p ∧
      g.matchPat = "(?<![^.]\\.|:)" ++ p ∧ scanGroups p.data = true with hP
  show ∀ g ∈ rules, P g
  have hnew : ∀ (nm : String) (vocab : List String), vocab ∈ [gf, gc, lf, lc, pf, pc] →
      ∀ p, createOptimizedRegex (some (vocab.map JSVal.str)) {} = .ok p →
      P ⟨nm, "(?<![^.]\\.|:)" ++ p⟩ := by
    intro nm vocab hv p hp
    exact ⟨vocab, p, hv, hp, rfl, scanGroups_of_tokenSeq (tokenSeq_pattern hp)⟩
  unfold mkStandardRules at h
  simp only [bind, Except.bind] at h
  cases h1 : pushRule [] "support.function.luau" gf with
  | error e => rw [h1] at h; cases h
  | ok r1 =>
  rw [h1] at h
  simp only [] at h
  cases h2 : pushRule r1 "constant.language.luau" gc with
  | error e => rw [h2] at h; cases h
  | ok r2 =>
  rw [h2] at h
  simp only [] at h
  cases h3 : pushRule r2 "support.function.luau" lf with
  | error e => rw [h3] at h; cases h
  | ok r3 =>
  rw [h3] at h
  simp only [] at h
  cases h4 : pushRule r3 "support.constant.luau" lc with
  | error e => rw [h4] at h; cases h
  | ok r4 =>
  rw [h4] at h
  simp only [] at h
  cases h5 : pushRule r4 "support.function.luau" pf with
  | error e => rw [h5] at h; cases h
  | ok r5 =>
  rw [h5] at h
  simp only [] at h
  cases h6 : pushRule r5 "support.constant.luau" pc with
  | error e => rw [h6] at h; cases h
  | ok r6 =>
  rw [h6] at h
  simp only [] at h
  cases h
  have k1 : ∀ g ∈ r1, P g :=
    pushRule_spec P (by simp) (hnew _ gf (by simp)) h1
  have k2 : ∀ g ∈ r2, P g :=
    pushRule_spec P k1 (hnew _ gc (by simp)) h2
  have k3 : ∀ g ∈ r3, P g :=
    pushRule_spec P k2 (hnew _ lf (by simp)) h3
  have k4 : ∀ g ∈ r4, P g :=
    pushRule_spec P k3 (hnew _ lc (by simp)) h4
  have k5 : ∀ g ∈ r5, P g :=
    pushRule_spec P k4 (hnew _ pf (by simp)) h5
  exact pushRule_spec P k5 (hnew _ pc (by simp)) h6

theorem c8_witness :
    ∃ vocab p, vocab ∈ [["print"], ([] : List String), [], [], [], []] ∧
      createOptimizedRegex (some (vocab.map JSVal.str)) {} = .ok p ∧
      ("(?<![^.]\\.|:)\\bprint\\b" : String) = "(?<![^.]\\.|:)" ++ p ∧
      scanGroups p.data = true :=
  c8_lookbehind ["print"] [] [] [] [] []
    [GrammarRule.mk "support.function.luau" "(?<![^.]\\.|:)\\bprint\\b"] rfl
    (GrammarRule.mk "support.function.luau" "(?<![^.]\\.|:)\\bprint\\b")
    (List.Mem.head _)
